import Mathlib

/-!
Verification of the persistence core of the B4RT mod launcher (src/app.py).

The store is a single SQLite table `mods`.  We shallow-embed it as a list of
records in rowid order together with the AUTOINCREMENT sequence counter.
Strings are Lean `String`s (logically `List Char`); SQLite's BINARY collation
is code-point comparison, its `LOWER` and the `NOCASE` collation fold ASCII
letters only (exactly `Char.toLower`), its `TRIM` removes only the space
character, and `LIKE` is ASCII-case-insensitive with wildcards `%` and `_`.
Python's `str.strip()` is modelled as stripping ASCII whitespace and
`str.lower()` as ASCII lowering (they agree with the code on all ASCII data).
-/

/-- A row of the `mods` table, in the current (fully migrated) schema. -/
structure Record where
  id : Nat
  name : String
  cover_path : String
  bat_path : String
  status : String
  last_run : Int
  version : String
  category : String
  blend_path : String
  work_path : String
deriving DecidableEq

/-- The Python dict handed to `db_insert` / `db_update`; `none` models an
absent key, so `mod.get(k, d)` becomes `Option.getD`. -/
structure ModInput where
  name : Option String := none
  cover_path : Option String := none
  bat_path : Option String := none
  status : Option String := none
  last_run : Option Int := none
  version : Option String := none
  category : Option String := none
  blend_path : Option String := none
  work_path : Option String := none
deriving DecidableEq

/-- Store state: rows in rowid order plus the AUTOINCREMENT sequence. -/
structure DbState where
  rows : List Record
  seq : Nat
deriving DecidableEq

/-- ASCII-lower a character list (SQLite `LOWER` / `NOCASE` folding). -/
def lowerL (l : List Char) : List Char := l.map Char.toLower

/-- Characters stripped by Python `str.strip()` (ASCII fragment). -/
def pySpace (c : Char) : Bool :=
  c == ' ' || c == '\t' || c == '\n' || c == '\r' || c == '\x0b' || c == '\x0c'

/-- Drop trailing characters satisfying `p`. -/
def dropTrail (p : Char → Bool) (l : List Char) : List Char :=
  (l.reverse.dropWhile p).reverse

/-- Strip characters satisfying `p` from both ends. -/
def stripBy (p : Char → Bool) (l : List Char) : List Char :=
  dropTrail p (l.dropWhile p)

/-- Python `str.strip()` (on ASCII whitespace). -/
def pyStrip (s : String) : String := ⟨stripBy pySpace s.data⟩

/-- SQLite `TRIM`: removes only the space character from both ends. -/
def sqlTrim (s : String) : String := ⟨stripBy (· == ' ') s.data⟩

/-- SQLite `LIKE` matching (default, no ESCAPE): `%` matches any sequence,
`_` any single character, other characters compare ASCII-case-insensitively.
Structural recursion on the pattern: `%` tries every suffix of the text. -/
def likeMatch : List Char → List Char → Bool
  | [], s => s.isEmpty
  | p :: ps, s =>
    if p = '%' then
      s.tails.any (fun t => likeMatch ps t)
    else
      match s with
      | [] => false
      | c :: cs => (p == '_' || Char.toLower p == Char.toLower c) && likeMatch ps cs

/-- The name-filter condition of `db_fetch_all`: Python skips the clause for
a falsy (empty/absent) filter, otherwise `LOWER(name) LIKE '%' + f.lower() + '%'`. -/
def namePass (nf : Option String) (r : Record) : Bool :=
  match nf with
  | none => true
  | some f =>
    if f = "" then true
    else likeMatch ('%' :: (lowerL f.data ++ ['%'])) (lowerL r.name.data)

/-- The category-filter condition of `db_fetch_all`: Python skips the clause
when the filter is falsy or lowercases to `"__all__"`, otherwise the SQL
`category = ?` comparison is exact (BINARY). -/
def catPass (cf : Option String) (r : Record) : Bool :=
  match cf with
  | none => true
  | some c =>
    if c = "" then true
    else if lowerL c.data = "__all__".data then true
    else r.category == c

/-- SQLite BINARY (code-point) lexicographic `≤` on character lists. -/
def strLe : List Char → List Char → Bool
  | [], _ => true
  | _ :: _, [] => false
  | a :: as, b :: bs =>
    if a.toNat < b.toNat then true
    else if b.toNat < a.toNat then false
    else strLe as bs

/-- The order `ORDER BY name ASC` actually produces: BINARY comparison of
names, ties left in rowid (= id) order by the stable sort over the
rowid-ordered scan. -/
def recLe (r s : Record) : Bool :=
  strLe r.name.data s.name.data &&
    (!(strLe s.name.data r.name.data) || decide (r.id ≤ s.id))

/-- Propositional form of `recLe`. -/
def RecLeP (r s : Record) : Prop := recLe r s = true

instance : DecidableRel RecLeP := fun r s => instDecidableEqBool (recLe r s) true

/-- `NOCASE` collation order on strings (ASCII-case-insensitive). -/
def nocaseLe (a b : String) : Bool := strLe (lowerL a.data) (lowerL b.data)

/-- Propositional form of `nocaseLe`. -/
def NocaseLeP (a b : String) : Prop := nocaseLe a b = true

instance : DecidableRel NocaseLeP := fun a b => instDecidableEqBool (nocaseLe a b) true

/-- `db_fetch_all(name_filter, category_filter)`: WHERE clauses then
`ORDER BY name ASC`. -/
def db_fetch_all (rows : List Record) (nf cf : Option String) : List Record :=
  List.insertionSort RecLeP (rows.filter (fun r => namePass nf r && catPass cf r))

/-- Distinct for `SELECT DISTINCT`: keep the first occurrence of each value. -/
def dedupFirstAux (seen : List String) : List String → List String
  | [] => []
  | c :: cs =>
    if c ∈ seen then dedupFirstAux seen cs
    else c :: dedupFirstAux (c :: seen) cs

/-- Keep the first occurrence of each value in a list of strings. -/
def dedupFirst (l : List String) : List String := dedupFirstAux [] l

/-- `db_distinct_categories()`:
`SELECT DISTINCT category FROM mods WHERE TRIM(category) <> ''
 ORDER BY category COLLATE NOCASE`, then the Python `if r[0]` filter. -/
def db_distinct_categories (rows : List Record) : List String :=
  (List.insertionSort NocaseLeP
      (dedupFirst ((rows.map (·.category)).filter (fun c => sqlTrim c ≠ "")))).filter
    (fun c => c ≠ "")

/-- The row built by `db_insert`'s INSERT statement from the input dict. -/
def insertRow (newId : Nat) (m : ModInput) : Record :=
  { id := newId
    name := m.name.getD ""
    cover_path := m.cover_path.getD ""
    bat_path := m.bat_path.getD ""
    status := m.status.getD "Ready"
    last_run := m.last_run.getD 0
    version := pyStrip (m.version.getD "")
    category := pyStrip (m.category.getD "")
    blend_path := pyStrip (m.blend_path.getD "")
    work_path := pyStrip (m.work_path.getD "") }

/-- `db_insert(mod)`: appends a fresh row, returns `cur.lastrowid`. -/
def db_insert (s : DbState) (m : ModInput) : DbState × Nat :=
  let newId := s.seq + 1
  (⟨s.rows ++ [insertRow newId m], newId⟩, newId)

/-- `db_update(mod_id, mod)`: rewrites every field except `id` of the rows
matching `mod_id` (a no-op when no row matches). -/
def db_update (s : DbState) (i : Nat) (m : ModInput) : DbState :=
  { s with
    rows := s.rows.map (fun r => if r.id = i then insertRow r.id m else r) }

/-- `db_delete(mod_id)`: `DELETE FROM mods WHERE id = ?`. -/
def db_delete (s : DbState) (i : Nat) : DbState :=
  { s with rows := s.rows.filter (fun r => r.id ≠ i) }

/-- `db_update_run(mod_id, status, last_run_ts)`: narrow UPDATE of `status`
and `last_run` for the matching id. -/
def db_update_run (s : DbState) (i : Nat) (st : String) (ts : Int) : DbState :=
  { s with
    rows := s.rows.map
      (fun r => if r.id = i then { r with status := st, last_run := ts } else r) }

/-- The guarded create of `MainWindow.add_mod`: the dialog value is inserted
only when its (already stripped) name is non-empty; otherwise nothing
happens and no error is raised. -/
def add_mod_submit (s : DbState) (m : ModInput) : DbState :=
  if m.name.getD "" = "" then s else (db_insert s m).1

/-- A row as it may exist on disk before migration: the four columns added
after the original schema are `Option`s (`none` = column absent). -/
structure RawRow where
  id : Nat
  name : String
  cover_path : String
  bat_path : String
  status : String
  last_run : Int
  version : Option String := none
  category : Option String := none
  blend_path : Option String := none
  work_path : Option String := none
deriving DecidableEq

/-- On-disk schema state seen by `db_init`: whether the table and each of the
four later columns exist, plus the stored rows. -/
structure SchemaState where
  tableExists : Bool := false
  hasVersion : Bool := false
  hasCategory : Bool := false
  hasBlend : Bool := false
  hasWork : Bool := false
  dbRows : List RawRow := []
deriving DecidableEq

/-- `CREATE TABLE IF NOT EXISTS mods (...)` with the six original columns. -/
def ensureTable (s : SchemaState) : SchemaState :=
  if s.tableExists then s
  else { tableExists := true, hasVersion := false, hasCategory := false,
         hasBlend := false, hasWork := false, dbRows := [] }

/-- `ALTER TABLE mods ADD COLUMN version TEXT NOT NULL DEFAULT ''` guarded by
`_column_exists`. -/
def migrateVersion (s : SchemaState) : SchemaState :=
  if s.hasVersion then s
  else { s with hasVersion := true,
                dbRows := s.dbRows.map (fun r => { r with version := some "" }) }

/-- The guarded `ADD COLUMN category` migration. -/
def migrateCategory (s : SchemaState) : SchemaState :=
  if s.hasCategory then s
  else { s with hasCategory := true,
                dbRows := s.dbRows.map (fun r => { r with category := some "" }) }

/-- The guarded `ADD COLUMN blend_path` migration. -/
def migrateBlend (s : SchemaState) : SchemaState :=
  if s.hasBlend then s
  else { s with hasBlend := true,
                dbRows := s.dbRows.map (fun r => { r with blend_path := some "" }) }

/-- The guarded `ADD COLUMN work_path` migration. -/
def migrateWork (s : SchemaState) : SchemaState :=
  if s.hasWork then s
  else { s with hasWork := true,
                dbRows := s.dbRows.map (fun r => { r with work_path := some "" }) }

/-- `db_init()`: create the base table if needed, then the four additive
column migrations in source order. -/
def db_init (s : SchemaState) : SchemaState :=
  migrateWork (migrateBlend (migrateCategory (migrateVersion (ensureTable s))))

/-- Store states reachable by this program: the fresh store produced by
`db_init` on a new database, closed under the four mutating operations. -/
inductive Reachable : DbState → Prop
  | init : Reachable ⟨[], 0⟩
  | insert {s} (m : ModInput) : Reachable s → Reachable (db_insert s m).1
  | update {s} (i : Nat) (m : ModInput) : Reachable s → Reachable (db_update s i m)
  | delete {s} (i : Nat) : Reachable s → Reachable (db_delete s i)
  | run {s} (i : Nat) (st : String) (ts : Int) : Reachable s → Reachable (db_update_run s i st ts)

/-- A string with no leading and no trailing character matched by `p`. -/
def NoEdge (p : Char → Bool) (x : String) : Prop :=
  x.data.dropWhile p = x.data ∧ dropTrail p x.data = x.data

/-- The whitespace invariant of claim C10: the four stripped fields carry no
leading or trailing whitespace. -/
def StrippedFields (r : Record) : Prop :=
  NoEdge pySpace r.version ∧ NoEdge pySpace r.category ∧
    NoEdge pySpace r.blend_path ∧ NoEdge pySpace r.work_path

/-- Character lists containing neither LIKE wildcard. -/
def NoWild (p : List Char) : Prop := ∀ c ∈ p, c ≠ '%' ∧ c ≠ '_'

/-- The ordering claimed by the spec (written from the spec's words, for
comparison with `recLe`): name ascending case-insensitively, ties broken by
id ascending. -/
def ciLe (r s : Record) : Bool :=
  strLe (lowerL r.name.data) (lowerL s.name.data) &&
    (!(strLe (lowerL s.name.data) (lowerL r.name.data)) || decide (r.id ≤ s.id))

/-- Propositional form of `ciLe`. -/
def CiLeP (r s : Record) : Prop := ciLe r s = true

instance : DecidableRel CiLeP := fun r s => instDecidableEqBool (ciLe r s) true

/-- A sample record with the given id, name and category; all other text
fields empty, `status = "Ready"`, `last_run = 0`. -/
def mkRec (i : Nat) (nm cat : String) : Record :=
  ⟨i, nm, "", "", "Ready", 0, "", cat, "", ""⟩

/-- A sample two-record store used by witnesses. -/
def sampleStore : DbState := ⟨[mkRec 1 "a" "", mkRec 2 "b" ""], 2⟩

/-- A sample pre-migration store: table exists, none of the four later
columns do. -/
def oldStore : SchemaState :=
  { tableExists := true,
    dbRows := [{ id := 1, name := "n", cover_path := "c", bat_path := "b",
                 status := "Ready", last_run := 5 }] }

/-- A sample reachable store holding one inserted record. -/
def sampleReached : DbState :=
  (db_insert ⟨[], 0⟩ { name := some "n", category := some " a " }).1

/-! ### Order lemmas -/

theorem strLe_cons {x y : Char} {xs ys : List Char} :
    strLe (x :: xs) (y :: ys) = true ↔
      (x.toNat < y.toNat ∨ (x.toNat = y.toNat ∧ strLe xs ys = true)) := by
  simp only [strLe]
  by_cases h1 : x.toNat < y.toNat
  · simp [h1]
  · by_cases h2 : y.toNat < x.toNat
    · have h3 : ¬ (x.toNat < y.toNat ∨ (x.toNat = y.toNat ∧ strLe xs ys = true)) := by
        rintro (h | ⟨h, _⟩) <;> omega
      simp only [if_neg h1, if_pos h2]
      simp [h3]
    · have h3 : x.toNat = y.toNat := by omega
      simp [h1, h2, h3]

theorem strLe_total : ∀ a b : List Char, strLe a b = true ∨ strLe b a = true := by
  intro a
  induction a with
  | nil => intro b; left; simp [strLe]
  | cons x xs ih =>
    intro b
    cases b with
    | nil => right; simp [strLe]
    | cons y ys =>
      rcases Nat.lt_trichotomy x.toNat y.toNat with h | h | h
      · left; rw [strLe_cons]; exact Or.inl h
      · rcases ih ys with h2 | h2
        · left; rw [strLe_cons]; exact Or.inr ⟨h, h2⟩
        · right; rw [strLe_cons]; exact Or.inr ⟨h.symm, h2⟩
      · right; rw [strLe_cons]; exact Or.inl h

theorem strLe_trans : ∀ a b c : List Char,
    strLe a b = true → strLe b c = true → strLe a c = true := by
  intro a
  induction a with
  | nil => intro b c _ _; cases c <;> simp [strLe]
  | cons x xs ih =>
    intro b c hab hbc
    cases b with
    | nil => simp [strLe] at hab
    | cons y ys =>
      cases c with
      | nil => simp [strLe] at hbc
      | cons z zs =>
        rw [strLe_cons] at hab hbc ⊢
        rcases hab with h1 | ⟨h1, h1s⟩ <;> rcases hbc with h2 | ⟨h2, h2s⟩
        · exact Or.inl (by omega)
        · exact Or.inl (by omega)
        · exact Or.inl (by omega)
        · exact Or.inr ⟨by omega, ih ys zs h1s h2s⟩

theorem recLe_total (r s : Record) : RecLeP r s ∨ RecLeP s r := by
  unfold RecLeP recLe
  by_cases h1 : strLe r.name.data s.name.data = true <;>
    by_cases h2 : strLe s.name.data r.name.data = true
  · rcases Nat.le_total r.id s.id with hid | hid
    · left; simp [h1, h2, hid]
    · right; simp [h1, h2, hid]
  · left; simp [h1, h2]
  · right; simp [h1, h2]
  · rcases strLe_total r.name.data s.name.data with h | h <;> simp_all

theorem recLe_trans (r s t : Record) : RecLeP r s → RecLeP s t → RecLeP r t := by
  unfold RecLeP recLe
  intro h1 h2
  simp only [Bool.and_eq_true, Bool.or_eq_true, Bool.not_eq_true',
    decide_eq_true_eq] at h1 h2 ⊢
  obtain ⟨hrs, h1b⟩ := h1
  obtain ⟨hst, h2b⟩ := h2
  refine ⟨strLe_trans _ _ _ hrs hst, ?_⟩
  by_cases htr : strLe t.name.data r.name.data = true
  · right
    have hsr : strLe s.name.data r.name.data = true := strLe_trans _ _ _ hst htr
    have hts : strLe t.name.data s.name.data = true := strLe_trans _ _ _ htr hrs
    rcases h1b with h | h
    · rw [h] at hsr; cases hsr
    · rcases h2b with h2c | h2c
      · rw [h2c] at hts; cases hts
      · omega
  · left; simpa using htr

instance : IsTotal Record RecLeP := ⟨recLe_total⟩

instance : IsTrans Record RecLeP := ⟨recLe_trans⟩

theorem nocaseLe_total (a b : String) : NocaseLeP a b ∨ NocaseLeP b a :=
  strLe_total (lowerL a.data) (lowerL b.data)

theorem nocaseLe_trans (a b c : String) :
    NocaseLeP a b → NocaseLeP b c → NocaseLeP a c :=
  strLe_trans (lowerL a.data) (lowerL b.data) (lowerL c.data)

instance : IsTotal String NocaseLeP := ⟨nocaseLe_total⟩

instance : IsTrans String NocaseLeP := ⟨nocaseLe_trans⟩

/-! ### ASCII lowering lemmas -/

theorem toLower_toNat_of_upper {c : Char} (h : 65 ≤ c.toNat ∧ c.toNat ≤ 90) :
    (Char.toLower c).toNat = c.toNat + 32 := by
  have hv : (c.toNat + 32).isValidChar := Or.inl (by omega)
  simp only [Char.toLower]
  rw [if_pos (by exact ⟨h.1, h.2⟩)]
  unfold Char.ofNat
  rw [dif_pos hv]
  rfl

theorem toLower_eq_self {c : Char} (h : ¬ (65 ≤ c.toNat ∧ c.toNat ≤ 90)) :
    Char.toLower c = c := by
  simp only [Char.toLower]
  rw [if_neg (by exact fun hc => h ⟨hc.1, hc.2⟩)]

theorem toLower_idem (c : Char) : Char.toLower (Char.toLower c) = Char.toLower c := by
  by_cases h : 65 ≤ c.toNat ∧ c.toNat ≤ 90
  · refine toLower_eq_self ?_
    rw [toLower_toNat_of_upper h]
    omega
  · rw [toLower_eq_self h, toLower_eq_self h]

theorem lowerL_idem (l : List Char) : lowerL (lowerL l) = lowerL l := by
  simp [lowerL, List.map_map, Function.comp_def, toLower_idem]

theorem toLower_ne_of_ne {c d : Char} (hd : d.toNat < 97) (h : c ≠ d) :
    Char.toLower c ≠ d := by
  by_cases hc : 65 ≤ c.toNat ∧ c.toNat ≤ 90
  · intro he
    have := toLower_toNat_of_upper hc
    rw [he] at this
    omega
  · rw [toLower_eq_self hc]; exact h

theorem noWild_lowerL {p : List Char} (hp : NoWild p) : NoWild (lowerL p) := by
  intro c hc
  simp only [lowerL, List.mem_map] at hc
  obtain ⟨d, hd, rfl⟩ := hc
  obtain ⟨h1, h2⟩ := hp d hd
  exact ⟨toLower_ne_of_ne (by decide) h1, toLower_ne_of_ne (by decide) h2⟩

/-! ### LIKE semantics -/

theorem likeMatch_pct_cons (ps s : List Char) :
    likeMatch ('%' :: ps) s = s.tails.any (fun t => likeMatch ps t) := by
  simp [likeMatch]

theorem likeMatch_cons_nil {c : Char} (hc : c ≠ '%') (ps : List Char) :
    likeMatch (c :: ps) [] = false := by
  simp [likeMatch, hc]

theorem likeMatch_cons_char {c : Char} (hc : c ≠ '%') (ps : List Char) (d : Char)
    (ds : List Char) :
    likeMatch (c :: ps) (d :: ds)
      = ((c == '_' || Char.toLower c == Char.toLower d) && likeMatch ps ds) := by
  simp [likeMatch, hc]

theorem likeMatch_plain {p : List Char} (hp : NoWild p) (s : List Char) :
    likeMatch p s = true ↔ lowerL p = lowerL s := by
  induction p generalizing s with
  | nil => cases s <;> simp [likeMatch, lowerL]
  | cons c cs ih =>
    have hc := hp c (by simp)
    have hcs : NoWild cs := fun d hd => hp d (by simp [hd])
    cases s with
    | nil => simp [likeMatch_cons_nil hc.1, lowerL]
    | cons d ds =>
      rw [likeMatch_cons_char hc.1, Bool.and_eq_true, Bool.or_eq_true]
      rw [ih hcs]
      simp only [beq_iff_eq, lowerL, List.map_cons, List.cons.injEq]
      simp [hc.2]

theorem likeMatch_append_pct {p : List Char} (hp : NoWild p) (s : List Char) :
    likeMatch (p ++ ['%']) s = true ↔ ∃ u v, s = u ++ v ∧ lowerL u = lowerL p := by
  induction p generalizing s with
  | nil =>
    rw [List.nil_append, likeMatch_pct_cons, List.any_eq_true]
    constructor
    · intro _
      exact ⟨[], s, by simp, by simp [lowerL]⟩
    · intro _
      refine ⟨[], ?_, by simp [likeMatch]⟩
      rw [List.mem_tails]
      exact ⟨s, by simp⟩
  | cons c cs ih =>
    have hc := hp c (by simp)
    have hcs : NoWild cs := fun d hd => hp d (by simp [hd])
    cases s with
    | nil =>
      rw [List.cons_append, likeMatch_cons_nil hc.1]
      simp only [Bool.false_eq_true, false_iff]
      rintro ⟨u, v, he, hu⟩
      obtain ⟨rfl, rfl⟩ := List.append_eq_nil.mp he.symm
      simp [lowerL] at hu
    | cons d ds =>
      rw [List.cons_append, likeMatch_cons_char hc.1, Bool.and_eq_true,
        Bool.or_eq_true, ih hcs]
      simp only [beq_iff_eq]
      constructor
      · rintro ⟨hcd, u, v, rfl, hu⟩
        rcases hcd with h | h
        · exact absurd h hc.2
        · refine ⟨d :: u, v, rfl, ?_⟩
          simp only [lowerL, List.map_cons, List.cons.injEq]
          simp only [lowerL] at hu
          exact ⟨h.symm, hu⟩
      · rintro ⟨u, v, he, hu⟩
        cases u with
        | nil => simp [lowerL] at hu
        | cons u0 us =>
          simp only [List.cons_append, List.cons.injEq] at he
          obtain ⟨rfl, rfl⟩ := he
          simp only [lowerL, List.map_cons, List.cons.injEq] at hu
          exact ⟨Or.inr hu.1.symm, us, v, rfl, hu.2⟩

theorem likeMatch_pct_wrap {p : List Char} (hp : NoWild p) (s : List Char) :
    likeMatch ('%' :: (p ++ ['%'])) s = true ↔ lowerL p <:+: lowerL s := by
  rw [likeMatch_pct_cons, List.any_eq_true]
  constructor
  · rintro ⟨t, ht, hm⟩
    rw [List.mem_tails] at ht
    obtain ⟨w, rfl⟩ := ht
    have hm2 : likeMatch (p ++ ['%']) t = true := hm
    rw [likeMatch_append_pct hp] at hm2
    obtain ⟨u, v, rfl, hu⟩ := hm2
    refine ⟨lowerL w, lowerL v, ?_⟩
    simp only [lowerL] at hu ⊢
    simp [← hu, List.append_assoc]
  · rintro ⟨x, y, hxy⟩
    refine ⟨s.drop x.length, ?_, ?_⟩
    · rw [List.mem_tails]; exact List.drop_suffix _ _
    · show likeMatch (p ++ ['%']) (s.drop x.length) = true
      rw [likeMatch_append_pct hp]
      refine ⟨(s.drop x.length).take p.length, (s.drop x.length).drop p.length,
        (List.take_append_drop _ _).symm, ?_⟩
      have hl : lowerL ((s.drop x.length).take p.length)
          = (lowerL (s.drop x.length)).take p.length := by
        simp [lowerL]
      have hd : lowerL (s.drop x.length) = (lowerL s).drop x.length := by
        simp [lowerL]
      rw [hl, hd, ← hxy, List.append_assoc, List.drop_left]
      exact List.take_left' (by simp [lowerL])

/-! ### Fetch membership -/

theorem fetch_perm (rows : List Record) (nf cf : Option String) :
    List.Perm (db_fetch_all rows nf cf)
      (rows.filter (fun r => namePass nf r && catPass cf r)) :=
  List.perm_insertionSort _ _

theorem filter_none_none (rows : List Record) :
    rows.filter (fun r => namePass none r && catPass none r) = rows := by
  simp [namePass, catPass]

theorem fetch_none_perm (rows : List Record) :
    List.Perm (db_fetch_all rows none none) rows := by
  have h := fetch_perm rows none none
  rwa [filter_none_none] at h

theorem fetch_mem {rows : List Record} {nf cf : Option String} {r : Record} :
    r ∈ db_fetch_all rows nf cf
      ↔ r ∈ rows ∧ namePass nf r = true ∧ catPass cf r = true := by
  unfold db_fetch_all
  rw [List.mem_insertionSort, List.mem_filter, Bool.and_eq_true]

/-! ### Strip lemmas -/

theorem dropWhile_dropWhile (p : Char → Bool) (l : List Char) :
    (l.dropWhile p).dropWhile p = l.dropWhile p := by
  induction l with
  | nil => rfl
  | cons a t ih =>
    by_cases h : p a
    · simp [List.dropWhile_cons, h, ih]
    · simp [List.dropWhile_cons, h]

theorem dropTrail_dropTrail (p : Char → Bool) (l : List Char) :
    dropTrail p (dropTrail p l) = dropTrail p l := by
  unfold dropTrail
  rw [List.reverse_reverse, dropWhile_dropWhile]

theorem dropWhile_cons_head {p : Char → Bool} {a : Char} {t : List Char}
    (h : List.dropWhile p (a :: t) = a :: t) : p a = false := by
  by_contra hc
  have hpa : p a = true := by revert hc; cases p a <;> simp
  rw [List.dropWhile_cons_of_pos hpa] at h
  have hle := (List.dropWhile_suffix p : List.dropWhile p t <:+ t).length_le
  rw [h] at hle
  simp at hle

theorem dropWhile_dropTrail {p : Char → Bool} {l : List Char}
    (h : List.dropWhile p l = l) :
    List.dropWhile p (dropTrail p l) = dropTrail p l := by
  obtain ⟨w, hw⟩ :=
    (List.dropWhile_suffix p : List.dropWhile p l.reverse <:+ l.reverse)
  have ht : dropTrail p l ++ w.reverse = l := by
    have h2 := congrArg List.reverse hw
    rw [List.reverse_append, List.reverse_reverse] at h2
    exact h2
  cases hd : dropTrail p l with
  | nil => simp
  | cons a u =>
    rw [hd] at ht
    have hla : l = a :: (u ++ w.reverse) := by rw [← ht]; simp
    have hpa : p a = false := by
      have h2 := h
      rw [hla] at h2
      exact dropWhile_cons_head h2
    rw [List.dropWhile_cons_of_neg (by simp [hpa])]

theorem stripBy_noEdge (p : Char → Bool) (l : List Char) :
    List.dropWhile p (stripBy p l) = stripBy p l
      ∧ dropTrail p (stripBy p l) = stripBy p l := by
  constructor
  · exact dropWhile_dropTrail (dropWhile_dropWhile p l)
  · exact dropTrail_dropTrail p _

theorem pyStrip_noEdge (s : String) : NoEdge pySpace (pyStrip s) :=
  stripBy_noEdge pySpace s.data

/-! ### Dedup lemmas -/

theorem mem_dedupFirstAux {l : List String} {a : String} :
    ∀ {seen : List String}, a ∈ dedupFirstAux seen l → a ∈ l := by
  induction l with
  | nil => intro seen h; simp [dedupFirstAux] at h
  | cons c cs ih =>
    intro seen h
    simp only [dedupFirstAux] at h
    by_cases hm : c ∈ seen
    · rw [if_pos hm] at h
      exact List.mem_cons_of_mem _ (ih h)
    · rw [if_neg hm] at h
      rcases List.mem_cons.mp h with rfl | h2
      · exact List.mem_cons_self _ _
      · exact List.mem_cons_of_mem _ (ih h2)

theorem dedupFirstAux_nodup (l : List String) :
    ∀ seen : List String,
      (dedupFirstAux seen l).Nodup ∧ ∀ a ∈ dedupFirstAux seen l, a ∉ seen := by
  induction l with
  | nil => intro seen; simp [dedupFirstAux]
  | cons c cs ih =>
    intro seen
    simp only [dedupFirstAux]
    by_cases hm : c ∈ seen
    · rw [if_pos hm]; exact ih seen
    · rw [if_neg hm]
      obtain ⟨hn, hs⟩ := ih (c :: seen)
      refine ⟨List.nodup_cons.mpr ⟨fun hcm => (hs c hcm) (List.mem_cons_self _ _), hn⟩, ?_⟩
      intro a ha
      rcases List.mem_cons.mp ha with rfl | h2
      · exact hm
      · intro hseen
        exact (hs a h2) (List.mem_cons_of_mem _ hseen)

theorem dedupFirst_nodup (l : List String) : (dedupFirst l).Nodup :=
  (dedupFirstAux_nodup l []).1

/-! ### Schema migration lemmas -/

theorem db_init_flags (s : SchemaState) :
    (db_init s).tableExists = true ∧ (db_init s).hasVersion = true
      ∧ (db_init s).hasCategory = true ∧ (db_init s).hasBlend = true
      ∧ (db_init s).hasWork = true := by
  obtain ⟨te, hv, hc, hb, hw, rows⟩ := s
  unfold db_init migrateWork migrateBlend migrateCategory migrateVersion ensureTable
  cases te <;> cases hv <;> cases hc <;> cases hb <;> cases hw <;> simp

theorem db_init_idem (s : SchemaState) : db_init (db_init s) = db_init s := by
  obtain ⟨f1, f2, f3, f4, f5⟩ := db_init_flags s
  have e1 : ensureTable (db_init s) = db_init s := by unfold ensureTable; simp [f1]
  have e2 : migrateVersion (db_init s) = db_init s := by unfold migrateVersion; simp [f2]
  have e3 : migrateCategory (db_init s) = db_init s := by unfold migrateCategory; simp [f3]
  have e4 : migrateBlend (db_init s) = db_init s := by unfold migrateBlend; simp [f4]
  have e5 : migrateWork (db_init s) = db_init s := by unfold migrateWork; simp [f5]
  show migrateWork (migrateBlend (migrateCategory (migrateVersion (ensureTable (db_init s)))))
      = db_init s
  rw [e1, e2, e3, e4, e5]

theorem db_init_migrates (s : SchemaState) (h1 : s.tableExists = true)
    (h2 : s.hasVersion = false) (h3 : s.hasCategory = false)
    (h4 : s.hasBlend = false) (h5 : s.hasWork = false) :
    (db_init s).dbRows = s.dbRows.map
      (fun r => { r with version := some "", category := some "",
                         blend_path := some "", work_path := some "" }) := by
  obtain ⟨te, hv, hc, hb, hw, rows⟩ := s
  dsimp only at h1 h2 h3 h4 h5
  subst h1 h2 h3 h4 h5
  unfold db_init migrateWork migrateBlend migrateCategory migrateVersion ensureTable
  simp [List.map_map]

/-! ### Filter semantics helpers -/

theorem namePass_some {f : String} (hf : NoWild f.data) (hfe : f ≠ "") (r : Record) :
    (namePass (some f) r = true ↔ lowerL f.data <:+: lowerL r.name.data) := by
  simp only [namePass, if_neg hfe]
  rw [likeMatch_pct_wrap (noWild_lowerL hf), lowerL_idem, lowerL_idem]

/-! ### Reachability invariant -/

theorem reachable_stripped {s : DbState} (h : Reachable s) :
    ∀ r ∈ s.rows, StrippedFields r := by
  induction h with
  | init => intro r hr; simp at hr
  | insert m _ ih =>
    intro r hr
    rcases List.mem_append.mp hr with h1 | h1
    · exact ih r h1
    · rcases List.mem_singleton.mp h1 with rfl
      exact ⟨pyStrip_noEdge _, pyStrip_noEdge _, pyStrip_noEdge _, pyStrip_noEdge _⟩
  | update i m _ ih =>
    intro r hr
    rcases List.mem_map.mp hr with ⟨r0, hr0, rfl⟩
    by_cases he : r0.id = i
    · rw [if_pos he]
      exact ⟨pyStrip_noEdge _, pyStrip_noEdge _, pyStrip_noEdge _, pyStrip_noEdge _⟩
    · rw [if_neg he]
      exact ih r0 hr0
  | delete i _ ih =>
    intro r hr
    exact ih r (List.mem_filter.mp hr).1
  | run i st ts _ ih =>
    intro r hr
    rcases List.mem_map.mp hr with ⟨r0, hr0, rfl⟩
    by_cases he : r0.id = i
    · rw [if_pos he]
      obtain ⟨a, b, c, d⟩ := ih r0 hr0
      exact ⟨a, b, c, d⟩
    · rw [if_neg he]
      exact ih r0 hr0

/-! ### Claims -/

/-- C1 (amended): for every store state and every combination of filters the
sequence returned by `db_fetch_all` is ordered by name ascending under the
case-sensitive BINARY (code-point) comparison — not case-insensitively —
with ties between equal names in id-ascending order. -/
theorem c1_fetch_sorted (rows : List Record) (nf cf : Option String) :
    List.Sorted RecLeP (db_fetch_all rows nf cf) :=
  List.sorted_insertionSort _ _

/-- C1 counterexample: with records named "a" (id 1) and "B" (id 2) the
unfiltered listing is ["B", "a"], which is not sorted by the claimed
case-insensitive order (case-insensitively "a" < "B"). -/
theorem c1_counterexample :
    db_fetch_all [mkRec 1 "a" "", mkRec 2 "B" ""] none none
        = [mkRec 2 "B" "", mkRec 1 "a" ""]
      ∧ ¬ List.Sorted CiLeP (db_fetch_all [mkRec 1 "a" "", mkRec 2 "B" ""] none none) := by
  refine ⟨by decide, ?_⟩
  intro hs
  rw [show db_fetch_all [mkRec 1 "a" "", mkRec 2 "B" ""] none none
      = [mkRec 2 "B" "", mkRec 1 "a" ""] from by decide] at hs
  have h := (List.sorted_cons.mp hs).1 (mkRec 1 "a" "") (by simp)
  exact absurd h (by decide)

/-- C2 (amended): an absent or empty name filter passes every record; a
non-empty filter containing no LIKE wildcard (`%`, `_`) includes a record
iff the filter is an ASCII-case-insensitive substring of the record's name.
(With wildcards the inclusion follows SQL LIKE semantics instead, because
the code interpolates the filter into the pattern unescaped.) -/
theorem c2_name_filter (rows : List Record) (f : String) (r : Record) :
    (r ∈ db_fetch_all rows none none ↔ r ∈ rows)
    ∧ (r ∈ db_fetch_all rows (some "") none ↔ r ∈ rows)
    ∧ (f ≠ "" → NoWild f.data →
        (r ∈ db_fetch_all rows (some f) none
          ↔ r ∈ rows ∧ lowerL f.data <:+: lowerL r.name.data)) := by
  refine ⟨?_, ?_, ?_⟩
  · rw [fetch_mem]; simp [namePass, catPass]
  · rw [fetch_mem]; simp [namePass, catPass]
  · intro hfe hf
    rw [fetch_mem, namePass_some hf hfe]
    simp [catPass]

/-- C2 witness: the record "Dragon Pose" is included by the wildcard-free
filter "agon po", which is indeed a case-insensitive substring. -/
theorem c2_witness :
    (mkRec 1 "Dragon Pose" "" ∈
        db_fetch_all [mkRec 1 "Dragon Pose" ""] (some "agon po") none)
      ∧ lowerL "agon po".data <:+: lowerL "Dragon Pose".data := by
  have h := (c2_name_filter [mkRec 1 "Dragon Pose" ""] "agon po"
    (mkRec 1 "Dragon Pose" "")).2.2 (by decide) (by unfold NoWild; decide)
  have hin : lowerL "agon po".data <:+: lowerL "Dragon Pose".data :=
    ⟨"dr".data, "se".data, by decide⟩
  exact ⟨h.mpr ⟨by decide, hin⟩, hin⟩

/-- C2 counterexample: the filter "_" (a LIKE wildcard the code does not
escape) matches the record named "ab" although "_" is not a substring of
"ab" in any case folding. -/
theorem c2_counterexample :
    (mkRec 1 "ab" "" ∈ db_fetch_all [mkRec 1 "ab" ""] (some "_") none)
      ∧ ¬ lowerL "_".data <:+: lowerL "ab".data := by
  refine ⟨by decide, ?_⟩
  rintro ⟨u, v, he⟩
  have : u ++ '_' :: v = ['a', 'b'] := by
    simpa [lowerL] using he
  rcases u with _ | ⟨a, _ | ⟨b, u⟩⟩ <;> simp_all

/-- C3 (amended): the category filter is skipped not only when absent but
also when it is the empty string or any case variant of the sentinel
"__all__" (the code lowercases before comparing); otherwise a record passes
iff its stored category is an exact, case-sensitive match, and the two
filters compose with logical AND. -/
theorem c3_category_filter (rows : List Record) (nf : Option String) (c : String)
    (r : Record) :
    (db_fetch_all rows nf (some "") = db_fetch_all rows nf none)
    ∧ (lowerL c.data = "__all__".data →
        db_fetch_all rows nf (some c) = db_fetch_all rows nf none)
    ∧ (c ≠ "" → lowerL c.data ≠ "__all__".data →
        (r ∈ db_fetch_all rows nf (some c)
          ↔ r ∈ db_fetch_all rows nf none ∧ r.category = c)) := by
  refine ⟨?_, ?_, ?_⟩
  · unfold db_fetch_all
    congr 1
  · intro hall
    unfold db_fetch_all
    congr 1
    apply List.filter_congr
    intro x _
    by_cases hce : c = ""
    · simp [catPass, hce]
    · simp [catPass, hce, hall]
  · intro hce hall
    rw [fetch_mem, fetch_mem]
    simp only [catPass, if_neg hce, if_neg hall, beq_iff_eq, and_true]
    tauto

/-- C3 witness: the sentinel in a different case, "__ALL__", disables
category filtering. -/
theorem c3_witness :
    db_fetch_all [mkRec 1 "n" "x"] none (some "__ALL__")
      = db_fetch_all [mkRec 1 "n" "x"] none none :=
  (c3_category_filter [mkRec 1 "n" "x"] none "__ALL__" (mkRec 1 "n" "x")).2.1
    (by decide)

/-- C3 counterexample: with the empty-string category filter (neither absent
nor the sentinel) the record with category "x" is still returned, though the
claim's exact-match reading would exclude it. -/
theorem c3_counterexample :
    (mkRec 1 "n" "x" ∈ db_fetch_all [mkRec 1 "n" "x"] none (some ""))
      ∧ (mkRec 1 "n" "x").category ≠ "" := ⟨by decide, by decide⟩

/-- C4 (amended): `db_distinct_categories` never returns the empty string or
a string of spaces only (SQL `TRIM` strips only the space character, so
other whitespace-only values are not excluded), contains no case-sensitive
duplicates, and is sorted in the ASCII-case-insensitive NOCASE order. -/
theorem c4_distinct_categories (rows : List Record) :
    (∀ c ∈ db_distinct_categories rows, c ≠ "" ∧ sqlTrim c ≠ "")
    ∧ (db_distinct_categories rows).Nodup
    ∧ List.Sorted NocaseLeP (db_distinct_categories rows) := by
  refine ⟨?_, ?_, ?_⟩
  · intro c hc
    unfold db_distinct_categories at hc
    rw [List.mem_filter] at hc
    obtain ⟨hmem, hne⟩ := hc
    refine ⟨by simpa using hne, ?_⟩
    rw [List.mem_insertionSort] at hmem
    have h2 := mem_dedupFirstAux hmem
    rw [List.mem_filter] at h2
    simpa using h2.2
  · unfold db_distinct_categories
    apply List.Nodup.filter
    exact (List.perm_insertionSort NocaseLeP _).symm.nodup (dedupFirst_nodup _)
  · unfold db_distinct_categories
    apply List.Pairwise.filter
    exact List.sorted_insertionSort _ _

/-- C4 witness: for a store using category "x", the returned value "x" is
neither empty nor space-only. -/
theorem c4_witness : ("x" : String) ≠ "" ∧ sqlTrim "x" ≠ "" :=
  (c4_distinct_categories [mkRec 1 "n" "x"]).1 "x" (by decide)

/-- C4 counterexample: a category consisting of a single tab character (a
whitespace-only string) is returned by `db_distinct_categories`, because
SQLite `TRIM` removes only spaces. -/
theorem c4_counterexample :
    db_distinct_categories [mkRec 1 "n" "\t"] = ["\t"]
      ∧ ("\t" : String) ≠ ""
      ∧ "\t".data.all Char.isWhitespace = true := ⟨by decide, by decide, by decide⟩

/-- C5 (amended): for every store whose ids do not exceed the sequence
counter, `db_insert` followed by an unfiltered listing yields exactly one
new record — carrying the returned id, which no previously listed record
has — whose fields equal the supplied values except that `version`,
`category`, `blend_path` and `work_path` are stored with surrounding
whitespace stripped, and with `last_run = 0` / `status = "Ready"` when not
supplied. -/
theorem c5_insert_listing (s : DbState) (m : ModInput)
    (hfresh : ∀ r ∈ s.rows, r.id ≤ s.seq) :
    (∀ r ∈ db_fetch_all s.rows none none, r.id ≠ (db_insert s m).2)
    ∧ List.Perm (db_fetch_all (db_insert s m).1.rows none none)
        ({ id := (db_insert s m).2,
           name := m.name.getD "",
           cover_path := m.cover_path.getD "",
           bat_path := m.bat_path.getD "",
           status := m.status.getD "Ready",
           last_run := m.last_run.getD 0,
           version := pyStrip (m.version.getD ""),
           category := pyStrip (m.category.getD ""),
           blend_path := pyStrip (m.blend_path.getD ""),
           work_path := pyStrip (m.work_path.getD "") }
          :: db_fetch_all s.rows none none) := by
  constructor
  · intro r hr
    have hmem : r ∈ s.rows := (fetch_mem.mp hr).1
    have hle := hfresh r hmem
    show r.id ≠ s.seq + 1
    omega
  · have h1 := fetch_none_perm (db_insert s m).1.rows
    have h2 : (db_insert s m).1.rows = s.rows ++ [insertRow (s.seq + 1) m] := rfl
    rw [h2] at h1
    refine h1.trans ?_
    refine (List.perm_append_singleton _ _).trans ?_
    exact ((fetch_none_perm s.rows).symm).cons _

/-- C5 witness: inserting named record "a" into the empty store and listing
returns exactly that one defaulted record with the returned id 1. -/
theorem c5_witness :
    List.Perm
      (db_fetch_all (db_insert ⟨[], 0⟩ { name := some "a" }).1.rows none none)
      (insertRow (db_insert (⟨[], 0⟩ : DbState) { name := some "a" }).2
          { name := some "a" }
        :: db_fetch_all ([] : List Record) none none) :=
  (c5_insert_listing ⟨[], 0⟩ { name := some "a" } (by simp)).2

/-- C5 counterexample: inserting version " 1 " stores "1", so the fetched
record does not equal the supplied field values as the claim states. -/
theorem c5_counterexample :
    (db_fetch_all (db_insert ⟨[], 0⟩ { name := some "a", version := some " 1 " }).1.rows
        none none).map (fun r => r.version) = ["1"]
      ∧ ("1" : String) ≠ " 1 " := ⟨by decide, by decide⟩

/-- C6: `db_update_run` changes only `status` and `last_run` of the record
with the given id; re-fetching shows every other field of that record and
every other record unchanged. -/
theorem c6_update_run_frame (s : DbState) (i : Nat) (st : String) (ts : Int) :
    List.Perm (db_fetch_all (db_update_run s i st ts).rows none none)
      ((db_fetch_all s.rows none none).map
        (fun r => if r.id = i then { r with status := st, last_run := ts } else r)) := by
  have h1 := fetch_none_perm (db_update_run s i st ts).rows
  have h2 : (db_update_run s i st ts).rows
      = s.rows.map (fun r => if r.id = i then { r with status := st, last_run := ts } else r) :=
    rfl
  rw [h2] at h1
  exact h1.trans (((fetch_none_perm s.rows).symm).map _)

/-- C7: after `db_delete id` no listing (under any filters) contains a
record with that id, records with other ids survive, deleting an id that is
absent leaves the store unchanged, and deleting twice equals deleting
once. -/
theorem c7_delete (s : DbState) (i : Nat) (nf cf : Option String) :
    (∀ r ∈ db_fetch_all (db_delete s i).rows nf cf, r.id ≠ i)
    ∧ (∀ r ∈ s.rows, r.id ≠ i → r ∈ (db_delete s i).rows)
    ∧ ((∀ r ∈ s.rows, r.id ≠ i) → db_delete s i = s)
    ∧ db_delete (db_delete s i) i = db_delete s i := by
  refine ⟨?_, ?_, ?_, ?_⟩
  · intro r hr
    have hmem := (fetch_mem.mp hr).1
    have hf := List.mem_filter.mp hmem
    simpa using hf.2
  · intro r hr hne
    exact List.mem_filter.mpr ⟨hr, by simpa using hne⟩
  · intro hall
    unfold db_delete
    have he : s.rows.filter (fun r => r.id ≠ i) = s.rows :=
      List.filter_eq_self.mpr (fun a ha => by simpa using hall a ha)
    rw [he]
  · have hff : (s.rows.filter (fun r => r.id ≠ i)).filter (fun r => r.id ≠ i)
        = s.rows.filter (fun r => r.id ≠ i) :=
      List.filter_eq_self.mpr (fun a ha => (List.mem_filter.mp ha).2)
    show ({ rows := (s.rows.filter (fun r => r.id ≠ i)).filter (fun r => r.id ≠ i),
            seq := s.seq } : DbState)
        = { rows := s.rows.filter (fun r => r.id ≠ i), seq := s.seq }
    rw [hff]

/-- C7 witness: deleting id 1 from the sample store keeps the record with
id 2. -/
theorem c7_witness : mkRec 2 "b" "" ∈ (db_delete sampleStore 1).rows :=
  (c7_delete sampleStore 1 none none).2.1 (mkRec 2 "b" "") (by decide) (by decide)

/-- C8: `db_init` is idempotent, and run against a pre-existing store that
lacks all four newer columns it adds them backfilled to the empty string
while leaving `id`, `name`, `cover_path`, `bat_path`, `status` and
`last_run` of every existing row untouched. -/
theorem c8_db_init (s : SchemaState) :
    db_init (db_init s) = db_init s
    ∧ (s.tableExists = true → s.hasVersion = false → s.hasCategory = false →
        s.hasBlend = false → s.hasWork = false →
        (db_init s).dbRows = s.dbRows.map
          (fun r => { r with version := some "", category := some "",
                             blend_path := some "", work_path := some "" })) :=
  ⟨db_init_idem s, fun h1 h2 h3 h4 h5 => db_init_migrates s h1 h2 h3 h4 h5⟩

/-- C8 witness: migrating the sample old store backfills the four columns
with the empty string and keeps the original row data. -/
theorem c8_witness :
    (db_init oldStore).dbRows
      = [{ id := 1, name := "n", cover_path := "c", bat_path := "b",
           status := "Ready", last_run := 5, version := some "",
           category := some "", blend_path := some "", work_path := some "" }] := by
  have h := (c8_db_init oldStore).2 rfl rfl rfl rfl rfl
  rw [h]
  rfl

/-- C9 (amended): `db_insert` itself is permissive — a field set with a
missing or empty name inserts a record whose name is the empty string, with
no error — while the collaborator `add_mod` enforces the name policy by
silently skipping the insert (no `ValidationError` is raised anywhere),
leaving the store unchanged. -/
theorem c9_empty_name (s : DbState) (m : ModInput) (h : m.name.getD "" = "") :
    add_mod_submit s m = s
    ∧ (db_insert s m).1.rows = s.rows ++ [insertRow (s.seq + 1) m]
    ∧ (insertRow (s.seq + 1) m).name = "" := by
  refine ⟨?_, rfl, ?_⟩
  · unfold add_mod_submit
    rw [if_pos h]
  · simpa [insertRow] using h

/-- C9 witness: submitting an empty dict through the guarded flow leaves the
empty store unchanged, while calling `db_insert` directly adds a row with
an empty name. -/
theorem c9_witness :
    add_mod_submit ⟨[], 0⟩ {} = (⟨[], 0⟩ : DbState)
      ∧ (db_insert (⟨[], 0⟩ : DbState) {}).1.rows = [insertRow 1 {}]
      ∧ (insertRow 1 ({} : ModInput)).name = "" := by
  have h := c9_empty_name ⟨[], 0⟩ {} (by decide)
  exact ⟨h.1, h.2.1, h.2.2⟩

/-- C9 counterexample: calling `db_insert` with a nameless field set does
not fail and does not leave the store unchanged — a record is added. -/
theorem c9_counterexample :
    (db_insert ⟨[], 0⟩ ({} : ModInput)).1.rows ≠ ([] : List Record)
      ∧ (db_insert ⟨[], 0⟩ ({} : ModInput)).1.rows.length = 1 := ⟨by decide, by decide⟩

/-- C10: `db_insert` and `db_update` persist `version`, `category`,
`blend_path` and `work_path` stripped of surrounding whitespace and store
`name`, `cover_path`, `bat_path`, `status`, `last_run` exactly as supplied;
consequently in every reachable store state those four fields carry no
leading or trailing whitespace. -/
theorem c10_strip_invariant (s : DbState) (m : ModInput) (i : Nat) :
    ((db_insert s m).1.rows = s.rows
        ++ [{ id := s.seq + 1,
              name := m.name.getD "",
              cover_path := m.cover_path.getD "",
              bat_path := m.bat_path.getD "",
              status := m.status.getD "Ready",
              last_run := m.last_run.getD 0,
              version := pyStrip (m.version.getD ""),
              category := pyStrip (m.category.getD ""),
              blend_path := pyStrip (m.blend_path.getD ""),
              work_path := pyStrip (m.work_path.getD "") }])
    ∧ (db_update s i m).rows = s.rows.map
        (fun r => if r.id = i then
          { id := r.id,
            name := m.name.getD "",
            cover_path := m.cover_path.getD "",
            bat_path := m.bat_path.getD "",
            status := m.status.getD "Ready",
            last_run := m.last_run.getD 0,
            version := pyStrip (m.version.getD ""),
            category := pyStrip (m.category.getD ""),
            blend_path := pyStrip (m.blend_path.getD ""),
            work_path := pyStrip (m.work_path.getD "") } else r)
    ∧ (Reachable s → ∀ r ∈ s.rows, StrippedFields r) :=
  ⟨rfl, rfl, fun h => reachable_stripped h⟩

/-- C10 witness: the store reached by inserting category " a " holds the
record with category "a", whose four optional fields satisfy the
no-edge-whitespace invariant. -/
theorem c10_witness : StrippedFields ⟨1, "n", "", "", "Ready", 0, "", "a", "", ""⟩ :=
  (c10_strip_invariant sampleReached {} 0).2.2
    (Reachable.insert _ Reachable.init) _ (by decide)
